import Mathlib

/-!
Verification of the PastelPlayer audio player (src/index.tsx, src/types.ts)
against its natural-language specification.

The numeric code of the player runs on JavaScript numbers; arithmetic is
modelled exactly, over `ℚ` where the computation is rational and over `ℝ`
for the visualizer's logarithmic frequency mapping (Math.exp / Math.log).
Playlist state lives in the React component `App`; its handlers are pure
state transformers here.
-/

set_option maxHeartbeats 1000000

namespace PastelPlayer

/-- A playlist entry, from src/types.ts (`Song`).  The optional browser
`File` handle and cached `duration` play no role in the playlist logic and
are omitted. -/
structure Song where
  id : String
  title : String
  url : String
deriving DecidableEq, Repr

/-- The playlist-related React state of the `App` component
(src/index.tsx lines 16-18): the `songs` list, `currentSongIndex`
(-1 means no active track) and the `isPlaying` flag. -/
structure AppState where
  songs : List Song
  currentSongIndex : Int
  isPlaying : Bool
deriving DecidableEq, Repr

/-- JavaScript `Array.prototype.findIndex` specialised to matching a song id,
as used in `deleteSong` (src/index.tsx line 371): index of the first song
with the given id, `-1` if none. -/
def jsFindIndex (l : List Song) (id : String) : Int :=
  match l with
  | [] => -1
  | s :: rest =>
    if s.id = id then 0
    else
      let r := jsFindIndex rest id
      if r = -1 then -1 else r + 1

/-- `playSong` (src/index.tsx lines 344-349): select index and start playing,
guarded by `index >= 0 && index < songs.length`. -/
def playSong (st : AppState) (index : Int) : AppState :=
  if 0 ≤ index ∧ index < st.songs.length then
    { st with currentSongIndex := index, isPlaying := true }
  else st

/-- `nextSong` (src/index.tsx lines 351-355): wrap-around advance using the
JavaScript `%` operator (truncated remainder, `Int.tmod`). -/
def nextSong (st : AppState) : AppState :=
  if st.songs.length = 0 then st
  else playSong st (Int.tmod (st.currentSongIndex + 1) st.songs.length)

/-- JavaScript `duration || 0`: `0` when `duration` is falsy (the NaN case
does not arise for a rational model). -/
def jsOrZero (d : ℚ) : ℚ := if d = 0 then 0 else d

/-- `skipTime` (src/index.tsx lines 357-363): new playback position after
skipping by `amount`, `Math.min(Math.max(newTime, 0), duration || 0)`. -/
def skipTime (currentTime amount duration : ℚ) : ℚ :=
  min (max (currentTime + amount) 0) (jsOrZero duration)

/-- `deleteSong` (src/index.tsx lines 365-387), as a transformer of the
playlist state.  The DOM side effects (revoking the object URL, pausing the
audio element, cancelling the animation frame, clearing the canvas) carry no
playlist state and are not modelled. -/
def deleteSong (st : AppState) (id : String) : AppState :=
  let indexToRemove := jsFindIndex st.songs id
  let remaining := st.songs.filter (fun s => s.id != id)
  if indexToRemove = st.currentSongIndex then
    { songs := remaining, currentSongIndex := -1, isPlaying := false }
  else if indexToRemove < st.currentSongIndex then
    { songs := remaining, currentSongIndex := st.currentSongIndex - 1,
      isPlaying := st.isPlaying }
  else
    { songs := remaining, currentSongIndex := st.currentSongIndex,
      isPlaying := st.isPlaying }

/-- `jsFindIndex` returns the length of the prefix when the first hit sits
right behind a prefix free of the id. -/
theorem jsFindIndex_append (l1 l2 : List Song) (s : Song)
    (h1 : ∀ x ∈ l1, x.id ≠ s.id) :
    jsFindIndex (l1 ++ s :: l2) s.id = l1.length := by
  induction l1 with
  | nil => simp [jsFindIndex]
  | cons a t ih =>
    have ha : a.id ≠ s.id := h1 a (by simp)
    have ht : ∀ x ∈ t, x.id ≠ s.id := fun x hx => h1 x (by simp [hx])
    have hrec := ih ht
    simp only [List.cons_append, jsFindIndex, ha, if_false, List.append_eq]
    rw [hrec]
    have hne : ((t.length : Int)) ≠ -1 := by omega
    simp only [hne, if_false, List.length_cons]
    omega

/-- Filtering out the deleted id removes exactly the one song carrying it. -/
theorem filter_delete (l1 l2 : List Song) (s : Song)
    (h1 : ∀ x ∈ l1, x.id ≠ s.id) (h2 : ∀ x ∈ l2, x.id ≠ s.id) :
    (l1 ++ s :: l2).filter (fun x => x.id != s.id) = l1 ++ l2 := by
  rw [List.filter_append, List.filter_cons]
  have hs : (s.id != s.id) = false := by simp
  rw [hs]
  simp only [Bool.false_eq_true, if_false]
  have e1 : l1.filter (fun x => x.id != s.id) = l1 :=
    List.filter_eq_self.mpr (fun a ha => by simp [h1 a ha])
  have e2 : l2.filter (fun x => x.id != s.id) = l2 :=
    List.filter_eq_self.mpr (fun a ha => by simp [h2 a ha])
  rw [e1, e2]

/-- C5: deleting the active track clears the playing flag and sets
`currentIndex = -1`; deleting a track strictly before the active one shifts
`currentIndex` down by exactly one and the same track stays active.  The
active track is at index `l1.length` (first part) resp. at
`l1.length + 1 + m` inside `l2` (second part); `s` is the deleted track and
ids are unique. -/
theorem C5_deleteSong (l1 l2 : List Song) (s : Song) (playing : Bool)
    (h1 : ∀ x ∈ l1, x.id ≠ s.id) (h2 : ∀ x ∈ l2, x.id ≠ s.id) :
    ((deleteSong ⟨l1 ++ s :: l2, l1.length, playing⟩ s.id).isPlaying = false ∧
      (deleteSong ⟨l1 ++ s :: l2, l1.length, playing⟩ s.id).currentSongIndex = -1) ∧
    (∀ m : ℕ, m < l2.length →
      (deleteSong ⟨l1 ++ s :: l2, (l1.length : Int) + 1 + (m : Int), playing⟩ s.id).currentSongIndex
          = (l1.length : Int) + 1 + (m : Int) - 1 ∧
      (deleteSong ⟨l1 ++ s :: l2, (l1.length : Int) + 1 + (m : Int), playing⟩ s.id).isPlaying
          = playing ∧
      (deleteSong ⟨l1 ++ s :: l2, (l1.length : Int) + 1 + (m : Int), playing⟩ s.id).songs[l1.length + m]?
          = (l1 ++ s :: l2)[l1.length + 1 + m]?) := by
  have hfind := jsFindIndex_append l1 l2 s h1
  have hfilt := filter_delete l1 l2 s h1 h2
  constructor
  · constructor
    · simp [deleteSong, hfind]
    · simp [deleteSong, hfind]
  · intro m hm
    have hne : jsFindIndex (l1 ++ s :: l2) s.id ≠ (l1.length : Int) + 1 + (m : Int) := by
      rw [hfind]; omega
    have hlt : jsFindIndex (l1 ++ s :: l2) s.id < (l1.length : Int) + 1 + (m : Int) := by
      rw [hfind]; omega
    refine ⟨?_, ?_, ?_⟩
    · simp only [deleteSong]
      rw [if_neg hne, if_pos hlt]
    · simp only [deleteSong]
      rw [if_neg hne, if_pos hlt]
    · simp only [deleteSong]
      rw [if_neg hne, if_pos hlt]
      show (List.filter _ (l1 ++ s :: l2))[l1.length + m]? = _
      rw [hfilt]
      rw [List.getElem?_append_right (by omega : l1.length ≤ l1.length + m),
        List.getElem?_append_right (by omega : l1.length ≤ l1.length + 1 + m)]
      have e1 : l1.length + m - l1.length = m := by omega
      have e2 : l1.length + 1 + m - l1.length = m + 1 := by omega
      rw [e1, e2, List.getElem?_cons_succ]

/-- C10: deleting a track strictly after the active one leaves the current
index, the playing flag and the active track unchanged, and removes exactly
that one song.  The active track is at index `j` inside the prefix `l1`, the
deleted track `s` sits at index `l1.length > j`. -/
theorem C10_deleteSong_later (l1 l2 : List Song) (s : Song) (playing : Bool) (j : ℕ)
    (h1 : ∀ x ∈ l1, x.id ≠ s.id) (h2 : ∀ x ∈ l2, x.id ≠ s.id)
    (hj : j < l1.length) :
    (deleteSong ⟨l1 ++ s :: l2, (j : Int), playing⟩ s.id).currentSongIndex = (j : Int) ∧
    (deleteSong ⟨l1 ++ s :: l2, (j : Int), playing⟩ s.id).isPlaying = playing ∧
    (deleteSong ⟨l1 ++ s :: l2, (j : Int), playing⟩ s.id).songs = l1 ++ l2 ∧
    (deleteSong ⟨l1 ++ s :: l2, (j : Int), playing⟩ s.id).songs[j]?
        = (l1 ++ s :: l2)[j]? := by
  have hfind := jsFindIndex_append l1 l2 s h1
  have hfilt := filter_delete l1 l2 s h1 h2
  have hne : jsFindIndex (l1 ++ s :: l2) s.id ≠ (j : Int) := by
    rw [hfind]; omega
  have hnlt : ¬ jsFindIndex (l1 ++ s :: l2) s.id < (j : Int) := by
    rw [hfind]; omega
  refine ⟨?_, ?_, ?_, ?_⟩
  · simp only [deleteSong]
    rw [if_neg hne, if_neg hnlt]
  · simp only [deleteSong]
    rw [if_neg hne, if_neg hnlt]
  · simp only [deleteSong]
    rw [if_neg hne, if_neg hnlt]
    exact hfilt
  · simp only [deleteSong]
    rw [if_neg hne, if_neg hnlt]
    show (List.filter _ (l1 ++ s :: l2))[j]? = _
    rw [hfilt]
    rw [List.getElem?_append_left (by omega : j < l1.length),
      List.getElem?_append_left (by omega : j < l1.length)]

/-- C5 witness: playlist [A, B, C], track C active (index 2), delete A:
index shifts to 1 and C stays active. -/
theorem C5_deleteSong_witness :
    (∀ x ∈ ([] : List Song), x.id ≠ "a") ∧
    ((deleteSong ⟨[⟨"a", "A", "ua"⟩, ⟨"b", "B", "ub"⟩, ⟨"c", "C", "uc"⟩], 2, true⟩
        "a").currentSongIndex = 1 ∧
      (deleteSong ⟨[⟨"a", "A", "ua"⟩, ⟨"b", "B", "ub"⟩, ⟨"c", "C", "uc"⟩], 2, true⟩
        "a").isPlaying = true ∧
      (deleteSong ⟨[⟨"a", "A", "ua"⟩, ⟨"b", "B", "ub"⟩, ⟨"c", "C", "uc"⟩], 2, true⟩
        "a").songs[1]? = some ⟨"c", "C", "uc"⟩) := by
  constructor
  · intro x hx; cases hx
  · have h := (C5_deleteSong [] [⟨"b", "B", "ub"⟩, ⟨"c", "C", "uc"⟩] ⟨"a", "A", "ua"⟩ true
      (by intro x hx; cases hx) (by intro x hx; fin_cases hx <;> decide)).2 1 (by decide)
    simpa using h

/-- C10 witness: playlist [A, B], track A active, delete B: nothing about the
active track changes. -/
theorem C10_deleteSong_later_witness :
    (0 : ℕ) < 1 ∧
    ((deleteSong ⟨[⟨"a", "A", "ua"⟩, ⟨"b", "B", "ub"⟩], 0, true⟩ "b").currentSongIndex = 0 ∧
      (deleteSong ⟨[⟨"a", "A", "ua"⟩, ⟨"b", "B", "ub"⟩], 0, true⟩ "b").songs
        = [⟨"a", "A", "ua"⟩]) := by
  refine ⟨by decide, ?_⟩
  have h := C10_deleteSong_later [⟨"a", "A", "ua"⟩] [] ⟨"b", "B", "ub"⟩ true 0
    (by intro x hx; fin_cases hx <;> decide) (by intro x hx; cases hx) (by decide)
  exact ⟨h.1, by simpa using h.2.2.1⟩

/-- C6: on a non-empty playlist `nextSong` advances `currentSongIndex` by one
modulo the playlist length, keeps the playlist, sets the playing flag, and on
a one-song playlist lands back on index 0 (replaying the same song).
`-1 ≤ currentSongIndex` is the state invariant of the component. -/
theorem C6_nextSong (st : AppState) (hne : st.songs ≠ [])
    (hc : -1 ≤ st.currentSongIndex) :
    (nextSong st).currentSongIndex = (st.currentSongIndex + 1) % (st.songs.length : Int) ∧
    (nextSong st).isPlaying = true ∧
    (nextSong st).songs = st.songs ∧
    (st.songs.length = 1 → (nextSong st).currentSongIndex = 0) := by
  have hlen : 0 < st.songs.length := List.length_pos.mpr hne
  have hlen0 : st.songs.length ≠ 0 := by omega
  have hmod : Int.tmod (st.currentSongIndex + 1) st.songs.length
      = (st.currentSongIndex + 1) % (st.songs.length : Int) :=
    Int.tmod_eq_emod (by omega) (by positivity)
  have hn : (0 : Int) ≤ (st.currentSongIndex + 1) % (st.songs.length : Int) :=
    Int.emod_nonneg _ (by exact_mod_cast hlen0)
  have hl : (st.currentSongIndex + 1) % (st.songs.length : Int) < st.songs.length :=
    Int.emod_lt_of_pos _ (by exact_mod_cast hlen)
  have hmain : (nextSong st).currentSongIndex
      = (st.currentSongIndex + 1) % (st.songs.length : Int) := by
    simp [nextSong, hlen0, playSong, hmod, hn, hl]
  refine ⟨hmain, ?_, ?_, ?_⟩
  · simp [nextSong, hlen0, playSong, hmod, hn, hl]
  · simp [nextSong, hlen0, playSong, hmod, hn, hl]
  · intro h1
    rw [hmain, h1]
    simp

/-- C6 witness: one-song playlist with the song active. -/
theorem C6_nextSong_witness :
    ([⟨"a", "A", "ua"⟩] : List Song) ≠ [] ∧
    ((nextSong ⟨[⟨"a", "A", "ua"⟩], 0, true⟩).currentSongIndex = 0 ∧
      (nextSong ⟨[⟨"a", "A", "ua"⟩], 0, true⟩).isPlaying = true) := by
  refine ⟨by decide, ?_⟩
  have h := C6_nextSong ⟨[⟨"a", "A", "ua"⟩], 0, true⟩ (by decide) (by decide)
  exact ⟨h.2.2.2 (by decide), h.2.1⟩

/-- C9: `skipTime` clamps the target time into `[0, duration]` (for the
actual nonnegative media duration) and, being a total function, cannot
throw on any out-of-range input. -/
theorem C9_skipTime (t amount d : ℚ) (hd : 0 ≤ d) :
    skipTime t amount d = max 0 (min (t + amount) d) ∧
    0 ≤ skipTime t amount d ∧ skipTime t amount d ≤ d := by
  have hz : jsOrZero d = d := by
    unfold jsOrZero
    by_cases h : d = 0 <;> simp [h]
  have he : skipTime t amount d = max 0 (min (t + amount) d) := by
    unfold skipTime
    rw [hz, max_min_distrib_left]
    rw [max_comm (t + amount) 0]
    rw [max_eq_right hd]
  refine ⟨he, ?_, ?_⟩
  · rw [he]; exact le_max_left _ _
  · rw [he]
    exact max_le hd (min_le_right _ _)

/-- C9 witness: skipping far past the end of a 100-second track clamps to
100; skipping far backwards clamps to 0. -/
theorem C9_skipTime_witness :
    (0 : ℚ) ≤ 100 ∧ skipTime 90 1000 100 = max 0 (min (90 + 1000) 100) := by
  exact ⟨by norm_num, (C9_skipTime 90 1000 100 (by norm_num)).1⟩

/-- Noise gate of `drawVisualizer` (src/index.tsx lines 125-132): magnitudes
below the threshold 10 map to 0, otherwise rescale to `(val-10)/(255-10)`
and square (`Math.pow(val, 2.0)`). -/
def gateVal (val : ℕ) : ℚ :=
  if val < 10 then 0 else (((val : ℚ) - 10) / (255 - 10)) ^ 2

/-- C7: for a byte magnitude, the gated value is 0 whenever the input is at
most the threshold 10 (at exactly 10 the rescale also yields 0), and
`((m-10)/(255-10))^2` above it. -/
theorem C7_noiseGate (m : ℕ) (hm : m ≤ 255) :
    (m ≤ 10 → gateVal m = 0) ∧
    (10 < m → gateVal m = (((m : ℚ) - 10) / (255 - 10)) ^ 2) := by
  constructor
  · intro h10
    by_cases h : m < 10
    · simp [gateVal, h]
    · have : m = 10 := by omega
      subst this
      norm_num [gateVal]
  · intro h10
    have : ¬ m < 10 := by omega
    simp [gateVal, this]

/-- C7 witness: gate at magnitudes 10 (boundary) and 200. -/
theorem C7_noiseGate_witness :
    ((10 : ℕ) ≤ 255 ∧ gateVal 10 = 0) ∧
    ((200 : ℕ) ≤ 255 ∧ gateVal 200 = (((200 : ℚ) - 10) / (255 - 10)) ^ 2) := by
  constructor
  · exact ⟨by norm_num, (C7_noiseGate 10 (by norm_num)).1 (by norm_num)⟩
  · exact ⟨by norm_num, (C7_noiseGate 200 (by norm_num)).2 (by norm_num)⟩

/-!
Smoothing (src/index.tsx lines 152-160).  The loop

  for (let i = 1; i < smoothPoints.length - 1; i++) {
      smoothPoints[i].y = (smoothPoints[i-1].y + smoothPoints[i].y + smoothPoints[i+1].y) / 3;
  }

mutates the array in place while walking left to right, so the read of
`smoothPoints[i-1].y` sees the value already written in this same pass.
-/

/-- The smoothing loop body from index `i` on: `prev` is the already-updated
y at `i - 1`, the list holds the points from index `i` to the end.  The last
point (the loop stops at `length - 2`) and a singleton are left untouched. -/
def smoothGo (prev : ℚ) : List (ℚ × ℚ) → List (ℚ × ℚ)
  | [] => []
  | [p] => [p]
  | p :: q :: rest =>
    (p.1, (prev + p.2 + q.2) / 3) :: smoothGo ((prev + p.2 + q.2) / 3) (q :: rest)

/-- One full in-place smoothing pass: the first point is never written (the
loop starts at `i = 1`) and seeds `prev`. -/
def smoothPass (l : List (ℚ × ℚ)) : List (ℚ × ℚ) :=
  match l with
  | [] => []
  | p :: rest => p :: smoothGo p.2 rest

/-- The three smoothing passes (`passes = 3`). -/
def smooth3 (l : List (ℚ × ℚ)) : List (ℚ × ℚ) :=
  smoothPass (smoothPass (smoothPass l))

/-- The smoothing pass as the specification words it, for comparison with
`smoothPass`: every interior y becomes the mean of the *pass-start* values
of itself and its two neighbours; `prev` is the pass-start y at `i - 1`. -/
def jacobiGo (prev : ℚ) : List (ℚ × ℚ) → List (ℚ × ℚ)
  | [] => []
  | [p] => [p]
  | p :: q :: rest => (p.1, (prev + p.2 + q.2) / 3) :: jacobiGo p.2 (q :: rest)

/-- One start-of-pass-valued smoothing pass, as the specification words it. -/
def jacobiPass (l : List (ℚ × ℚ)) : List (ℚ × ℚ) :=
  match l with
  | [] => []
  | p :: rest => p :: jacobiGo p.2 rest

/-- The y value of the point at index `i` (0 when out of range). -/
def yAt (l : List (ℚ × ℚ)) (i : ℕ) : ℚ := (l.map Prod.snd).getD i 0

theorem smoothGo_length (l : List (ℚ × ℚ)) : ∀ prev, (smoothGo prev l).length = l.length := by
  induction l with
  | nil => intro prev; rfl
  | cons p rest ih =>
    intro prev
    cases rest with
    | nil => rfl
    | cons q t => simp only [smoothGo, List.length_cons, ih]

theorem smoothGo_getLast? (l : List (ℚ × ℚ)) :
    ∀ prev, (smoothGo prev l).getLast? = l.getLast? := by
  induction l with
  | nil => intro prev; rfl
  | cons p rest ih =>
    intro prev
    cases rest with
    | nil => rfl
    | cons q t =>
      have hne : (q :: t) ≠ ([] : List (ℚ × ℚ)) := by simp
      have hx := List.getLast?_eq_getLast (q :: t) hne
      rw [smoothGo, List.getLast?_cons, ih, hx, List.getLast?_cons_cons, hx]
      rfl

/-- Index recurrence of the in-place loop body: the value written at relative
index `j` averages the freshly written left neighbour (`prev` when `j = 0`)
with the pass-start values at `j` and `j + 1`. -/
theorem smoothGo_yAt (l : List (ℚ × ℚ)) :
    ∀ prev j, j + 1 < l.length →
      yAt (smoothGo prev l) j
        = ((if j = 0 then prev else yAt (smoothGo prev l) (j - 1)) + yAt l j + yAt l (j + 1)) / 3 := by
  induction l with
  | nil => intro prev j hj; simp at hj
  | cons p rest ih =>
    intro prev j hj
    cases rest with
    | nil => simp at hj
    | cons q t =>
      cases j with
      | zero =>
        simp [smoothGo, yAt]
      | succ j' =>
        have hj' : j' + 1 < (q :: t).length := by
          simpa using Nat.lt_of_succ_lt_succ hj
        have hrec := ih ((prev + p.2 + q.2) / 3) j' hj'
        have e1 : yAt (smoothGo prev (p :: q :: t)) (j' + 1)
            = yAt (smoothGo ((prev + p.2 + q.2) / 3) (q :: t)) j' := by
          simp [smoothGo, yAt]
        have e2 : yAt (p :: q :: t) (j' + 1) = yAt (q :: t) j' := by
          simp [yAt]
        have e3 : yAt (p :: q :: t) (j' + 2) = yAt (q :: t) (j' + 1) := by
          simp [yAt]
        rw [e1, hrec, e2, e3]
        cases j' with
        | zero =>
          simp [smoothGo, yAt]
        | succ j'' =>
          have e4 : yAt (smoothGo prev (p :: q :: t)) (j'' + 1)
              = yAt (smoothGo ((prev + p.2 + q.2) / 3) (q :: t)) j'' := by
            simp [smoothGo, yAt]
          simp only [Nat.succ_ne_zero, if_false, Nat.add_sub_cancel]
          rw [e4]

/-- C2 counterexample: on y values [0, 3, 3, 0] the implemented pass yields
[0, 2, 5/3, 0] (the second interior point reads the already-updated left
neighbour 2), while the claimed start-of-pass averaging yields [0, 2, 2, 0]. -/
theorem C2_counterexample :
    smoothPass [((0 : ℚ), (0 : ℚ)), (1, 3), (2, 3), (3, 0)]
      ≠ jacobiPass [((0 : ℚ), (0 : ℚ)), (1, 3), (2, 3), (3, 0)] := by
  intro h
  have h2 := congrArg (fun l => yAt l 2) h
  simp only [smoothPass, smoothGo, jacobiPass, jacobiGo, yAt, List.map_cons,
    List.map_nil, List.getD_cons_succ, List.getD_cons_zero] at h2
  norm_num at h2

/-- C2 (amended): each of the 3 passes walks the interior left to right *in
place*: the written y at index `i` is the mean of the already-updated y at
`i - 1`, the pass-start y at `i`, and the pass-start y at `i + 1`; the first
and last points are untouched by every pass (hence by all three). -/
theorem C2_smoothing_amended (l : List (ℚ × ℚ)) :
    (smoothPass l).length = l.length ∧
    (smoothPass l).head? = l.head? ∧
    (smoothPass l).getLast? = l.getLast? ∧
    (∀ i : ℕ, 1 ≤ i → i + 1 < l.length →
      yAt (smoothPass l) i
        = (yAt (smoothPass l) (i - 1) + yAt l i + yAt l (i + 1)) / 3) ∧
    (smooth3 l).head? = l.head? ∧ (smooth3 l).getLast? = l.getLast? := by
  have hlen : ∀ m : List (ℚ × ℚ), (smoothPass m).length = m.length := by
    intro m
    cases m with
    | nil => rfl
    | cons p rest => simp [smoothPass, smoothGo_length]
  have hhead : ∀ m : List (ℚ × ℚ), (smoothPass m).head? = m.head? := by
    intro m
    cases m with
    | nil => rfl
    | cons p rest => simp [smoothPass]
  have hlast : ∀ m : List (ℚ × ℚ), (smoothPass m).getLast? = m.getLast? := by
    intro m
    cases m with
    | nil => rfl
    | cons p rest =>
      cases rest with
      | nil => rfl
      | cons q t =>
        have hne : (q :: t) ≠ ([] : List (ℚ × ℚ)) := by simp
        have hx := List.getLast?_eq_getLast (q :: t) hne
        rw [smoothPass, List.getLast?_cons, smoothGo_getLast?, hx, List.getLast?_cons_cons, hx]
        rfl
  refine ⟨hlen l, hhead l, hlast l, ?_, ?_, ?_⟩
  · intro i h1 h2
    obtain ⟨j, rfl⟩ : ∃ j, i = j + 1 := ⟨i - 1, by omega⟩
    cases l with
    | nil => simp at h2
    | cons p rest =>
      have hj : j + 1 < rest.length := by simpa using Nat.lt_of_succ_lt_succ h2
      have hrec := smoothGo_yAt rest p.2 j hj
      have e1 : yAt (smoothPass (p :: rest)) (j + 1) = yAt (smoothGo p.2 rest) j := by
        simp [smoothPass, yAt]
      have e2 : yAt (p :: rest) (j + 1) = yAt rest j := by simp [yAt]
      have e3 : yAt (p :: rest) (j + 2) = yAt rest (j + 1) := by simp [yAt]
      rw [e1, hrec, e2, e3, Nat.add_sub_cancel]
      cases j with
      | zero => simp [smoothPass, yAt]
      | succ j'' =>
        have e4 : yAt (smoothPass (p :: rest)) (j'' + 1)
            = yAt (smoothGo p.2 rest) j'' := by
          simp [smoothPass, yAt]
        simp only [Nat.succ_ne_zero, if_false, Nat.add_sub_cancel]
        rw [e4]
  · rw [smooth3, hhead, hhead, hhead]
  · rw [smooth3, hlast, hlast, hlast]

/-- C2 amended witness: the recurrence evaluated on the [0, 3, 3, 0]
sequence at interior index 2. -/
theorem C2_smoothing_amended_witness :
    (1 : ℕ) ≤ 2 ∧ 2 + 1 < ([((0 : ℚ), (0 : ℚ)), (1, 3), (2, 3), (3, 0)] : List (ℚ × ℚ)).length ∧
    yAt (smoothPass [((0 : ℚ), (0 : ℚ)), (1, 3), (2, 3), (3, 0)]) 2
      = (yAt (smoothPass [((0 : ℚ), (0 : ℚ)), (1, 3), (2, 3), (3, 0)]) 1
          + yAt [((0 : ℚ), (0 : ℚ)), (1, 3), (2, 3), (3, 0)] 2
          + yAt [((0 : ℚ), (0 : ℚ)), (1, 3), (2, 3), (3, 0)] 3) / 3 := by
  refine ⟨by decide, by decide, ?_⟩
  exact (C2_smoothing_amended [((0 : ℚ), (0 : ℚ)), (1, 3), (2, 3), (3, 0)]).2.2.2.1
    2 (by decide) (by decide)

/-- C3 counterexample: with original y values [10, 0, 0, 0], after the three
in-place passes the point at index 2 has y = 1840/729 > 0, escaping the
min/max window {0} of its original 3-neighbour window (indices 1..3);
mass leaks rightwards because each pass reads updated left neighbours. -/
theorem C3_counterexample :
    ¬ (yAt (smooth3 [((0 : ℚ), (10 : ℚ)), (1, 0), (2, 0), (3, 0)]) 2
        ≤ max (yAt [((0 : ℚ), (10 : ℚ)), (1, 0), (2, 0), (3, 0)] 1)
            (max (yAt [((0 : ℚ), (10 : ℚ)), (1, 0), (2, 0), (3, 0)] 2)
              (yAt [((0 : ℚ), (10 : ℚ)), (1, 0), (2, 0), (3, 0)] 3))) := by
  simp only [smooth3, smoothPass, smoothGo, yAt, List.map_cons, List.map_nil,
    List.getD_cons_succ, List.getD_cons_zero]
  norm_num

theorem smoothGo_bounds (m M : ℚ) (l : List (ℚ × ℚ)) :
    ∀ prev, m ≤ prev → prev ≤ M → (∀ p ∈ l, m ≤ p.2 ∧ p.2 ≤ M) →
      ∀ p ∈ smoothGo prev l, m ≤ p.2 ∧ p.2 ≤ M := by
  induction l with
  | nil => intro prev _ _ _ p hp; simp [smoothGo] at hp
  | cons p rest ih =>
    intro prev hm hM hl x hx
    cases rest with
    | nil =>
      simp only [smoothGo] at hx
      exact hl x hx
    | cons q t =>
      simp only [smoothGo, List.mem_cons] at hx
      have hp := hl p (by simp)
      have hq := hl q (by simp)
      have hv : m ≤ (prev + p.2 + q.2) / 3 ∧ (prev + p.2 + q.2) / 3 ≤ M := by
        constructor <;> [linarith [hp.1, hq.1]; linarith [hp.2, hq.2]]
      rcases hx with h | h
      · rw [h]; exact hv
      · exact ih ((prev + p.2 + q.2) / 3) hv.1 hv.2
          (fun y hy => hl y (List.mem_cons_of_mem p hy)) x h

/-- C3 (amended): after the 3 in-place passes every point's y still lies in
any interval `[m, M]` that contains all the original y values — in
particular between the minimum and maximum of the whole original sequence.
The 3-neighbour window of the claim is too small: updated values propagate
further within a pass. -/
theorem C3_bounds_amended (m M : ℚ) (l : List (ℚ × ℚ))
    (h : ∀ p ∈ l, m ≤ p.2 ∧ p.2 ≤ M) :
    ∀ p ∈ smooth3 l, m ≤ p.2 ∧ p.2 ≤ M := by
  have hpass : ∀ (k : List (ℚ × ℚ)), (∀ p ∈ k, m ≤ p.2 ∧ p.2 ≤ M) →
      ∀ p ∈ smoothPass k, m ≤ p.2 ∧ p.2 ≤ M := by
    intro k hk x hx
    cases k with
    | nil => simp [smoothPass] at hx
    | cons p rest =>
      simp only [smoothPass, List.mem_cons] at hx
      have hp := hk p (by simp)
      rcases hx with h | h
      · rw [h]; exact hp
      · exact smoothGo_bounds m M rest p.2 hp.1 hp.2
          (fun y hy => hk y (List.mem_cons_of_mem p hy)) x h
  exact hpass _ (hpass _ (hpass _ h))

/-- C3 amended witness: on the [10, 0, 0, 0] sequence all smoothed y values
stay inside [0, 10]. -/
theorem C3_bounds_amended_witness :
    (∀ p ∈ ([((0 : ℚ), (10 : ℚ)), (1, 0), (2, 0), (3, 0)] : List (ℚ × ℚ)),
      (0 : ℚ) ≤ p.2 ∧ p.2 ≤ 10) ∧
    (∀ p ∈ smooth3 [((0 : ℚ), (10 : ℚ)), (1, 0), (2, 0), (3, 0)],
      (0 : ℚ) ≤ p.2 ∧ p.2 ≤ 10) := by
  refine ⟨?_, C3_bounds_amended 0 10 _ ?_⟩ <;>
    (intro p hp; fin_cases hp <;> norm_num)

/-!
Gain automation (togglePlay, src/index.tsx lines 211-272).  The player
schedules gain changes on the Web Audio `AudioParam` timeline.  The
platform semantics (external to this repository) is modelled exactly:
`cancelScheduledValues t` drops every event scheduled at or after `t`,
`setValueAtTime` holds a value from its time on, and
`linearRampToValueAtTime` interpolates linearly from the previous event's
value and time to its own.  The 500 ms `setTimeout` of the pause branch is
modelled as firing exactly at its delay.  Times and gains are rationals.
-/

/-- A scheduled gain automation event: `setValue v t` (setValueAtTime) or
`linearRamp v t` (linearRampToValueAtTime). -/
inductive GainEvent
  | setValue (v t : ℚ)
  | linearRamp (v t : ℚ)
deriving DecidableEq, Repr

/-- Scheduled time of an automation event. -/
def GainEvent.time : GainEvent → ℚ
  | setValue _ t => t
  | linearRamp _ t => t

/-- `AudioParam.cancelScheduledValues(t)`: removes the events scheduled at
time `t` or later. -/
def cancelScheduledValues (tl : List GainEvent) (t : ℚ) : List GainEvent :=
  tl.filter (fun e => decide (e.time < t))

/-- The automated gain value at time `t`, given the event list in schedule
order; `prevVal`/`prevTime` describe the last event before the list (the
initial value of the param). -/
def gainAt (prevVal prevTime : ℚ) : List GainEvent → ℚ → ℚ
  | [], _ => prevVal
  | .setValue v te :: rest, t =>
    if t < te then prevVal else gainAt v te rest t
  | .linearRamp v te :: rest, t =>
    if t < te then
      if te ≤ prevTime then v
      else prevVal + (v - prevVal) * (t - prevTime) / (te - prevTime)
    else gainAt v te rest t

/-- The gain automation performed by the play branch of `togglePlay`
(src/index.tsx lines 259-268): cancel pending events, hold 0 from `now`,
then ramp linearly to 1 at `now + 0.8`. -/
def playGainSequence (tl : List GainEvent) (now : ℚ) : List GainEvent :=
  (cancelScheduledValues tl now ++ [GainEvent.setValue 0 now])
    ++ [GainEvent.linearRamp 1 (now + 4/5)]

/-- Outcome of the pause branch of `togglePlay` (src/index.tsx lines
223-247): the new automation timeline and the times at which the deferred
500 ms callback pauses the audio element, stops the render loop and clears
the canvas. -/
structure PauseResult where
  timeline : List GainEvent
  audioPauseTime : ℚ
  loopStopTime : ℚ
  canvasClearTime : ℚ
deriving DecidableEq, Repr

/-- The pause branch of `togglePlay` at time `now`: cancel pending events,
pin the current computed gain value, ramp linearly to 0 at `now + 0.5`, and
schedule the teardown (pause element, stop loop, clear canvas) for 500 ms
later.  `initVal`/`initTime` give the param value before any event (the
gain node is created with value 1). -/
def pauseSequence (initVal initTime : ℚ) (tl : List GainEvent) (now : ℚ) : PauseResult :=
  let tl1 := cancelScheduledValues tl now
  let g := gainAt initVal initTime tl1 now
  { timeline := (tl1 ++ [GainEvent.setValue g now]) ++ [GainEvent.linearRamp 0 (now + 1/2)]
    audioPauseTime := now + 1/2
    loopStopTime := now + 1/2
    canvasClearTime := now + 1/2 }

/-- C8: pausing at time `tp` during the 0.8 s fade-in started at `t0` (from
Stopped, with a fresh automation timeline and initial gain 1 at time 0)
cancels the pending ramp-to-1, drives the gain to exactly 0 at every time
from `tp + 0.5` on, pauses the output element exactly 0.5 s after the pause
request (within 0.5 s), and stops the render loop and clears the canvas
only at that same moment, not before. -/
theorem C8_pauseDuringFadeIn (t0 tp : ℚ) (h0 : 0 ≤ t0) (h1 : t0 < tp)
    (h2 : tp < t0 + 4/5) :
    GainEvent.linearRamp 1 (t0 + 4/5)
        ∉ (pauseSequence 1 0 (playGainSequence [] t0) tp).timeline ∧
    (∀ t : ℚ, tp + 1/2 ≤ t →
      gainAt 1 0 (pauseSequence 1 0 (playGainSequence [] t0) tp).timeline t = 0) ∧
    (pauseSequence 1 0 (playGainSequence [] t0) tp).audioPauseTime = tp + 1/2 ∧
    (pauseSequence 1 0 (playGainSequence [] t0) tp).loopStopTime = tp + 1/2 ∧
    (pauseSequence 1 0 (playGainSequence [] t0) tp).canvasClearTime = tp + 1/2 := by
  have hn4 : ¬ (t0 + 4/5 < tp) := by linarith
  have e1 : playGainSequence [] t0
      = [GainEvent.setValue 0 t0, GainEvent.linearRamp 1 (t0 + 4/5)] := by
    simp [playGainSequence, cancelScheduledValues]
  have e2 : cancelScheduledValues (playGainSequence [] t0) tp
      = [GainEvent.setValue 0 t0] := by
    rw [e1]
    simp [cancelScheduledValues, GainEvent.time, h1, hn4]
  have hnp : ¬ (tp < t0) := by linarith
  have e3 : gainAt 1 0 [GainEvent.setValue 0 t0] tp = 0 := by
    simp [gainAt, hnp]
  have e4 : (pauseSequence 1 0 (playGainSequence [] t0) tp).timeline
      = [GainEvent.setValue 0 t0, GainEvent.setValue 0 tp,
          GainEvent.linearRamp 0 (tp + 1/2)] := by
    simp only [pauseSequence, e2, e3]
    rfl
  refine ⟨?_, ?_, by simp [pauseSequence], by simp [pauseSequence], by simp [pauseSequence]⟩
  · rw [e4]
    intro hmem
    simp only [List.mem_cons, List.mem_singleton] at hmem
    rcases hmem with h | h | h | h
    · cases h
    · cases h
    · have := (GainEvent.linearRamp.injEq _ _ _ _).mp h
      norm_num at this
    · cases h
  · intro t ht
    rw [e4]
    have c1 : ¬ (t < t0) := by linarith
    have c2 : ¬ (t < tp) := by linarith
    have c3 : ¬ (t < tp + 1/2) := by linarith
    simp [gainAt, c1, c2, c3]

/-- C8 witness: play at time 0, pause at time 1/2 (inside the 0.8 s ramp);
the gain is 0 from time 1 on and the teardown is scheduled for time 1. -/
theorem C8_pauseDuringFadeIn_witness :
    ((0 : ℚ) ≤ 0 ∧ (0 : ℚ) < 1/2 ∧ (1/2 : ℚ) < 0 + 4/5) ∧
    (∀ t : ℚ, (1/2 : ℚ) + 1/2 ≤ t →
      gainAt 1 0 (pauseSequence 1 0 (playGainSequence [] 0) (1/2)).timeline t = 0) ∧
    (pauseSequence 1 0 (playGainSequence [] 0) (1/2)).audioPauseTime = 1/2 + 1/2 := by
  refine ⟨⟨le_refl 0, by norm_num, by norm_num⟩, ?_, ?_⟩
  · exact (C8_pauseDuringFadeIn 0 (1/2) (le_refl 0) (by norm_num) (by norm_num)).2.1
  · exact (C8_pauseDuringFadeIn 0 (1/2) (le_refl 0) (by norm_num) (by norm_num)).2.2.1

/-!
Per-tick point construction of `drawVisualizer` (src/index.tsx lines
94-150).  `fftSize = 4096`, `bufferLength = frequencyBinCount = 2048`,
`steps = 180`; the loop runs `i = 0 .. 180` inclusive, so 181 points.
`Math.exp`/`Math.log`/`Math.floor` are modelled by the exact real
functions, so the frequency axis lives in `ℝ`.
-/

noncomputable section

/-- The log-spaced frequency of step `i`:
`Math.exp(logMin + (logMax - logMin) * percent)` with `percent = i / 180`,
`logMin = log 20`, `logMax = log 16000`. -/
def freqAt (i : ℕ) : ℝ :=
  Real.exp (Real.log 20 + (Real.log 16000 - Real.log 20) * ((i : ℝ) / 180))

/-- The analyser bin index of step `i`:
`Math.floor(freq / (sampleRate / analyser.fftSize))` with `fftSize = 4096`. -/
def binIndex (sampleRate : ℝ) (i : ℕ) : ℤ :=
  Int.floor (freqAt i / (sampleRate / 4096))

/-- The magnitude fetched for step `i`: `dataArray[index]` when
`index >= 0 && index < bufferLength` (`bufferLength = 2048`), else 0. -/
def rawVal (data : ℕ → ℕ) (sampleRate : ℝ) (i : ℕ) : ℕ :=
  if 0 ≤ binIndex sampleRate i ∧ binIndex sampleRate i < 2048 then
    data (binIndex sampleRate i).toNat
  else 0

/-- The equalisation weight of a frequency (src/index.tsx lines 134-143),
applied in source order: sub-bass attenuation (`freq < 60`), mid presence
boost (`200 <= freq <= 4000`, peak at 1000 Hz), treble boost
(`freq > 6000`). -/
def eqWeight (f : ℝ) : ℝ :=
  let w1 := if f < 60 then max 0.1 ((f - 20) / 40) else 1
  let w2 := if 200 ≤ f ∧ f ≤ 4000 then w1 + max 0 (1.2 - |f - 1000| / 2000) * 0.6
    else w1
  if 6000 < f then w2 * 1.3 else w2

/-- One display point of step `i` (src/index.tsx lines 115-150):
`x = width * percent`, `y = val * (height * 0.25)` where `val` is the gated
magnitude times the equalisation weight. -/
def pointAt (width height sampleRate : ℝ) (data : ℕ → ℕ) (i : ℕ) : ℝ × ℝ :=
  (width * ((i : ℝ) / 180),
    ((gateVal (rawVal data sampleRate i) : ℝ) * eqWeight (freqAt i)) * (height * 0.25))

/-- The per-tick point list, steps 0 .. 180. -/
def displayPoints (width height sampleRate : ℝ) (data : ℕ → ℕ) : List (ℝ × ℝ) :=
  (List.range 181).map (pointAt width height sampleRate data)

end

theorem gateVal_nonneg (v : ℕ) : 0 ≤ gateVal v := by
  unfold gateVal
  split
  · norm_num
  · positivity

theorem gateVal_le_one (v : ℕ) (hv : v ≤ 255) : gateVal v ≤ 1 := by
  unfold gateVal
  split
  · norm_num
  · rename_i h
    have h10 : (10 : ℚ) ≤ (v : ℚ) := by exact_mod_cast Nat.not_lt.mp h
    have h255 : (v : ℚ) ≤ 255 := by exact_mod_cast hv
    have hb0 : (0 : ℚ) ≤ ((v : ℚ) - 10) / (255 - 10) := by
      apply div_nonneg <;> linarith
    have hb1 : ((v : ℚ) - 10) / (255 - 10) ≤ 1 := by
      rw [div_le_one (by norm_num : (0 : ℚ) < 255 - 10)]
      linarith
    calc (((v : ℚ) - 10) / (255 - 10)) ^ 2 ≤ 1 ^ 2 := by
          apply pow_le_pow_left hb0 hb1
      _ = 1 := one_pow 2

theorem rawVal_le (data : ℕ → ℕ) (sampleRate : ℝ) (i : ℕ)
    (hdata : ∀ n, data n ≤ 255) : rawVal data sampleRate i ≤ 255 := by
  unfold rawVal
  split
  · exact hdata _
  · exact Nat.zero_le 255

/-- The equalisation weight always lies in `[0, 1.72]`; the maximum 1.72 is
the mid boost `1 + 1.2 * 0.6`. -/
theorem eqWeight_bounds (f : ℝ) : 0 ≤ eqWeight f ∧ eqWeight f ≤ 1.72 := by
  unfold eqWeight
  by_cases hf1 : f < 60
  · have hb : ¬ (200 ≤ f ∧ f ≤ 4000) := by
      rintro ⟨h, -⟩; linarith
    have ht : ¬ (6000 < f) := by linarith
    simp only [hf1, if_true, hb, if_false, ht]
    constructor
    · have : (0.1 : ℝ) ≤ max 0.1 ((f - 20) / 40) := le_max_left _ _
      linarith
    · apply max_le (by norm_num)
      rw [div_le_iff (by norm_num : (0:ℝ) < 40)]
      linarith
  · simp only [hf1, if_false]
    by_cases hf2 : 200 ≤ f ∧ f ≤ 4000
    · have ht : ¬ (6000 < f) := by
        have := hf2.2; linarith
      rw [if_pos hf2, if_neg ht]
      have hm0 : (0 : ℝ) ≤ max 0 (1.2 - |f - 1000| / 2000) := le_max_left _ _
      have hm1 : max 0 (1.2 - |f - 1000| / 2000) ≤ 1.2 := by
        apply max_le (by norm_num)
        have : (0 : ℝ) ≤ |f - 1000| / 2000 := by positivity
        linarith
      constructor <;> nlinarith
    · simp only [hf2, if_false]
      by_cases ht : 6000 < f
      · simp only [ht, if_true]
        norm_num
      · simp only [ht, if_false]
        norm_num

/-- C1 (amended): for every snapshot of byte magnitudes and every positive
sample rate, the loop builds exactly 181 points, the i-th being
`pointAt … i`; the x coordinates are strictly increasing for positive
canvas width; and every y lies in `[0, 1.72 * (height * 0.25)]` — the
equalisation weight (up to 1.72 at 1000 Hz) can push y beyond the quarter
height `height * 0.25` that the claim states. -/
theorem C1_points_amended (width height sampleRate : ℝ) (data : ℕ → ℕ)
    (hw : 0 < width) (hh : 0 ≤ height) (hs : 0 < sampleRate)
    (hdata : ∀ n, data n ≤ 255) :
    (displayPoints width height sampleRate data).length = 181 ∧
    (∀ i : ℕ, i < 181 →
      (displayPoints width height sampleRate data)[i]?
        = some (pointAt width height sampleRate data i)) ∧
    (∀ i j : ℕ, i < j → j < 181 →
      (pointAt width height sampleRate data i).1
        < (pointAt width height sampleRate data j).1) ∧
    (∀ p ∈ displayPoints width height sampleRate data,
      0 ≤ p.2 ∧ p.2 ≤ 1.72 * (height * 0.25)) := by
  refine ⟨by simp [displayPoints], ?_, ?_, ?_⟩
  · intro i hi
    simp [displayPoints, List.getElem?_range, hi]
  · intro i j hij hj
    unfold pointAt
    have hij2 : (i : ℝ) < (j : ℝ) := by exact_mod_cast hij
    have h3 : (i : ℝ) / 180 < (j : ℝ) / 180 := by linarith
    exact mul_lt_mul_of_pos_left h3 hw
  · intro p hp
    simp only [displayPoints, List.mem_map, List.mem_range] at hp
    obtain ⟨i, -, rfl⟩ := hp
    have hg0 : (0 : ℝ) ≤ (gateVal (rawVal data sampleRate i) : ℝ) := by
      exact_mod_cast gateVal_nonneg _
    have hg1 : (gateVal (rawVal data sampleRate i) : ℝ) ≤ 1 := by
      exact_mod_cast gateVal_le_one _ (rawVal_le data sampleRate i hdata)
    have hw0 := (eqWeight_bounds (freqAt i)).1
    have hw1 := (eqWeight_bounds (freqAt i)).2
    constructor
    · unfold pointAt
      have : 0 ≤ height * 0.25 := by positivity
      positivity
    · unfold pointAt
      have hq : (0 : ℝ) ≤ height * 0.25 := by positivity
      have h1 : (gateVal (rawVal data sampleRate i) : ℝ) * eqWeight (freqAt i) ≤ 1.72 := by
        nlinarith
      calc ((gateVal (rawVal data sampleRate i) : ℝ) * eqWeight (freqAt i)) * (height * 0.25)
          ≤ 1.72 * (height * 0.25) := mul_le_mul_of_nonneg_right h1 hq

/-- C1 amended witness: canvas 400 x 240, sample rate 44100, silent
snapshot. -/
theorem C1_points_amended_witness :
    ((0 : ℝ) < 400 ∧ (0 : ℝ) ≤ 240 ∧ (0 : ℝ) < 44100 ∧ ∀ n : ℕ, (fun _ : ℕ => 0) n ≤ 255) ∧
    (displayPoints 400 240 44100 (fun _ => 0)).length = 181 ∧
    (∀ p ∈ displayPoints 400 240 44100 (fun _ => 0),
      0 ≤ p.2 ∧ p.2 ≤ 1.72 * (240 * 0.25)) := by
  have h := C1_points_amended 400 240 44100 (fun _ => 0)
    (by norm_num) (by norm_num) (by norm_num) (fun n => by norm_num)
  exact ⟨⟨by norm_num, by norm_num, by norm_num, fun n => by norm_num⟩, h.1, h.2.2.2⟩

theorem freqAt_eq_rpow (i : ℕ) : freqAt i = 20 * (800 : ℝ) ^ ((i : ℝ) / 180) := by
  unfold freqAt
  have h800 : Real.log 16000 - Real.log 20 = Real.log 800 := by
    rw [← Real.log_div (by norm_num) (by norm_num)]
    norm_num
  rw [h800, Real.exp_add, Real.exp_log (by norm_num : (0 : ℝ) < 20),
    Real.rpow_def_of_pos (by norm_num : (0 : ℝ) < 800)]

/-- Locating step 94: `800 ^ (94/180)` lies between 10 and 100, so
`freqAt 94` lies between 200 and 2000 (inside the mid-boost band). -/
theorem rpow_94_bounds :
    (10 : ℝ) ≤ (800 : ℝ) ^ ((94 : ℝ) / 180) ∧ (800 : ℝ) ^ ((94 : ℝ) / 180) ≤ 100 := by
  have hb : (0 : ℝ) ≤ 800 := by norm_num
  have hy : (0 : ℝ) ≤ (800 : ℝ) ^ ((94 : ℝ) / 180) := Real.rpow_nonneg hb _
  have key : ((800 : ℝ) ^ ((94 : ℝ) / 180)) ^ (90 : ℕ) = (800 : ℝ) ^ (47 : ℕ) := by
    rw [← Real.rpow_natCast ((800 : ℝ) ^ ((94 : ℝ) / 180)) 90, ← Real.rpow_mul hb]
    have he : (94 : ℝ) / 180 * (90 : ℕ) = ((47 : ℕ) : ℝ) := by
      push_cast; norm_num
    rw [he, Real.rpow_natCast]
  constructor
  · apply le_of_pow_le_pow_left (n := 90) (by norm_num) hy
    rw [key]
    norm_num
  · apply le_of_pow_le_pow_left (n := 90) (by norm_num) (by norm_num : (0 : ℝ) ≤ 100)
    rw [key]
    norm_num

/-- C1 counterexample: with every bin at full magnitude 255, canvas
400 x 240 and sample rate 44100, the point of step 94 (about 656 Hz, inside
the mid boost) has y above `height * 0.25 = 60`, refuting the claimed bound
`y ≤ height * 0.25`. -/
theorem C1_counterexample :
    ¬ (∀ p ∈ displayPoints 400 240 44100 (fun _ => 255), p.2 ≤ 240 * 0.25) := by
  intro hall
  have hmem : pointAt 400 240 44100 (fun _ => 255) 94
      ∈ displayPoints 400 240 44100 (fun _ => 255) := by
    unfold displayPoints
    exact List.mem_map_of_mem _ (List.mem_range.mpr (by norm_num))
  have hy := hall _ hmem
  have hfr := freqAt_eq_rpow 94
  have hcast : ((94 : ℕ) : ℝ) = (94 : ℝ) := by norm_num
  rw [hcast] at hfr
  have hlow : (200 : ℝ) ≤ freqAt 94 := by
    rw [hfr]; nlinarith [rpow_94_bounds.1]
  have hhigh : freqAt 94 ≤ 2000 := by
    rw [hfr]; nlinarith [rpow_94_bounds.2]
  have hbin0 : 0 ≤ binIndex 44100 94 := by
    unfold binIndex
    apply Int.le_floor.mpr
    push_cast
    exact div_nonneg (by linarith) (by norm_num)
  have hbin1 : binIndex 44100 94 < 2048 := by
    unfold binIndex
    apply Int.floor_lt.mpr
    rw [div_lt_iff (by norm_num : (0 : ℝ) < 44100 / 4096)]
    push_cast
    nlinarith
  have hraw : rawVal (fun _ => 255) 44100 94 = 255 := by
    unfold rawVal
    rw [if_pos ⟨hbin0, hbin1⟩]
  have hgate : gateVal 255 = 1 := by norm_num [gateVal]
  have hnf1 : ¬ (freqAt 94 < 60) := by linarith
  have hf2 : 200 ≤ freqAt 94 ∧ freqAt 94 ≤ 4000 := ⟨hlow, by linarith⟩
  have hnf3 : ¬ (6000 < freqAt 94) := by linarith
  have habs : |freqAt 94 - 1000| ≤ 1000 := by
    rw [abs_le]; constructor <;> linarith
  have hwt : 1.42 ≤ eqWeight (freqAt 94) := by
    unfold eqWeight
    simp only [hnf1, if_false, hf2, if_true, hnf3, and_self]
    have hb : 0.7 ≤ max 0 (1.2 - |freqAt 94 - 1000| / 2000) := by
      have : (0.7 : ℝ) ≤ 1.2 - |freqAt 94 - 1000| / 2000 := by linarith
      exact le_trans this (le_max_right _ _)
    linarith
  have hyval : (pointAt 400 240 44100 (fun _ => 255) 94).2
      = ((gateVal (rawVal (fun _ => 255) 44100 94) : ℝ)
          * eqWeight (freqAt 94)) * (240 * 0.25) := rfl
  rw [hyval, hraw, hgate] at hy
  push_cast at hy
  nlinarith

/-!
Path construction (src/index.tsx lines 162-187).  The canvas path is a
`moveTo(0, centerY)`, a chain of `quadraticCurveTo` through midpoints over
the smoothed points (upper contour), two `lineTo` (to the mirrored last
point and to `(width, centerY)`), the mirrored chain right-to-left below
centre (lower contour), and `closePath` (a line back to the path start).
Geometry is modelled over `ℝ`; a contour is a list of segments with their
start, control and end points.
-/

/-- A path segment: a straight line (`lineTo` / `closePath`) or a quadratic
Bezier (`quadraticCurveTo`), with start, control and end points. -/
inductive Seg
  | line (a b : ℝ × ℝ)
  | quad (a c b : ℝ × ℝ)

noncomputable section

/-- The curve target of the top loop: `(midX, midY)` with
`midX = (p0.x + p1.x) / 2`, `midY = centerY - (p0.y + p1.y) / 2`
(src/index.tsx lines 170-171). -/
def umid (cY : ℝ) (p q : ℝ × ℝ) : ℝ × ℝ := ((p.1 + q.1) / 2, cY - (p.2 + q.2) / 2)

/-- The curve target of the bottom loop: midpoint mirrored below centre
(src/index.tsx lines 182-183). -/
def dmid (cY : ℝ) (p q : ℝ × ℝ) : ℝ × ℝ := ((p.1 + q.1) / 2, cY + (p.2 + q.2) / 2)

/-- The control point of the top loop: `(p0.x, centerY - p0.y)`
(src/index.tsx line 172). -/
def uctrl (cY : ℝ) (p : ℝ × ℝ) : ℝ × ℝ := (p.1, cY - p.2)

/-- The control point of the bottom loop: `(p0.x, centerY + p0.y)`
(src/index.tsx line 184). -/
def dctrl (cY : ℝ) (p : ℝ × ℝ) : ℝ × ℝ := (p.1, cY + p.2)

/-- The top loop (src/index.tsx lines 167-173): from current point `cur`,
for each consecutive pair `p0, p1` a quadratic with control
`uctrl cY p0` ending at the midpoint `umid cY p0 p1`; returns the segment
list and the final current point. -/
def upBuild (cY : ℝ) (cur : ℝ × ℝ) : List (ℝ × ℝ) → List Seg × (ℝ × ℝ)
  | p :: q :: rest =>
    let r := upBuild cY (umid cY p q) (q :: rest)
    (Seg.quad cur (uctrl cY p) (umid cY p q) :: r.1, r.2)
  | _ => ([], cur)

/-- The bottom (mirror) loop (src/index.tsx lines 179-185), identical but
reflected below centre; it is fed the reversed point list (the loop runs
`i` from `length - 1` down to `1`). -/
def dnBuild (cY : ℝ) (cur : ℝ × ℝ) : List (ℝ × ℝ) → List Seg × (ℝ × ℝ)
  | p :: q :: rest =>
    let r := dnBuild cY (dmid cY p q) (q :: rest)
    (Seg.quad cur (dctrl cY p) (dmid cY p q) :: r.1, r.2)
  | _ => ([], cur)

/-- The upper contour (lines 163-176): the quadratic chain from
`(0, centerY)`, then `lineTo(last.x, centerY - last.y)` and
`lineTo(width, centerY)`.  (On an empty point list the source would fault
reading `smoothPoints[length - 1]`; modelled as the empty path.) -/
def upperContour (pts : List (ℝ × ℝ)) (width cY : ℝ) : List Seg :=
  match pts.getLast? with
  | none => []
  | some lastp =>
    let r := upBuild cY (0, cY) pts
    r.1 ++ [Seg.line r.2 (lastp.1, cY - lastp.2),
      Seg.line (lastp.1, cY - lastp.2) (width, cY)]

/-- The lower contour (lines 178-187): the mirrored chain from
`(width, centerY)` over the reversed points, then `closePath`, i.e. a line
back to the path start `(0, centerY)`. -/
def lowerContour (pts : List (ℝ × ℝ)) (width cY : ℝ) : List Seg :=
  match pts with
  | [] => []
  | _ :: _ =>
    let r := dnBuild cY (width, cY) pts.reverse
    r.1 ++ [Seg.line r.2 (0, cY)]

/-- The point of a segment at parameter `t` (affine line, quadratic
Bezier). -/
def segEval : Seg → ℝ → ℝ × ℝ
  | .line a b, t => ((1 - t) * a.1 + t * b.1, (1 - t) * a.2 + t * b.2)
  | .quad a c b, t =>
    ((1 - t) ^ 2 * a.1 + 2 * t * (1 - t) * c.1 + t ^ 2 * b.1,
      (1 - t) ^ 2 * a.2 + 2 * t * (1 - t) * c.2 + t ^ 2 * b.2)

end

/-- A point lies on a segment. -/
def OnSeg (s : Seg) (p : ℝ × ℝ) : Prop :=
  ∃ t : ℝ, 0 ≤ t ∧ t ≤ 1 ∧ segEval s t = p

/-- A point lies on some segment of a contour. -/
def OnPath (l : List Seg) (p : ℝ × ℝ) : Prop := ∃ s ∈ l, OnSeg s p

/-- C4 counterexample: for the two smoothed points `(0,1), (2,1)` with
`width = 2`, `centerY = 10`, the lower contour contains `(1/4, 10 + 1/4)`
(on the close line) but the upper contour has no point at `x = 1/4` with
offset `1/4` above centre: its only segment covering `x = 1/4` is the
initial quadratic, which passes through `(1/4, 9.25)`, not `(1/4, 9.75)`.
The end caps of the two contours are built differently (lines above,
quadratic below), so the path is not symmetric about `centerY`. -/
theorem C4_counterexample :
    ¬ (∀ x d : ℝ,
      OnPath (upperContour [((0 : ℝ), (1 : ℝ)), (2, 1)] 2 10) (x, 10 - d)
        ↔ OnPath (lowerContour [((0 : ℝ), (1 : ℝ)), (2, 1)] 2 10) (x, 10 + d)) := by
  have eup : upperContour [((0 : ℝ), (1 : ℝ)), (2, 1)] 2 10
      = [Seg.quad (0, 10) (0, 9) (1, 9), Seg.line (1, 9) (2, 9),
          Seg.line (2, 9) (2, 10)] := by
    norm_num [upperContour, upBuild, umid, uctrl]
  have elow : lowerContour [((0 : ℝ), (1 : ℝ)), (2, 1)] 2 10
      = [Seg.quad (2, 10) (2, 11) (1, 11), Seg.line (1, 11) (0, 10)] := by
    norm_num [lowerContour, dnBuild, dmid, dctrl]
  intro h
  have hlow : OnPath (lowerContour [((0 : ℝ), (1 : ℝ)), (2, 1)] 2 10) (1/4, 10 + 1/4) := by
    rw [elow]
    refine ⟨Seg.line (1, 11) (0, 10), by simp, 3/4, by norm_num, by norm_num, ?_⟩
    simp only [segEval, Prod.mk.injEq]
    norm_num
  have hup := (h (1/4) (1/4)).mpr hlow
  rw [eup] at hup
  obtain ⟨s, hs, t, ht0, ht1, hte⟩ := hup
  simp only [List.mem_cons, List.not_mem_nil, or_false] at hs
  rcases hs with rfl | rfl | rfl
  · have hx := congrArg Prod.fst hte
    have hy := congrArg Prod.snd hte
    simp only [segEval] at hx hy
    norm_num at hx hy
    have hsq : t ^ 2 = 1/4 := by nlinarith
    have hfac : (t - 1/2) * (t + 1/2) = 0 := by linear_combination hsq
    rcases mul_eq_zero.mp hfac with hz | hz
    · have ht : t = 1/2 := by linarith
      rw [ht] at hy
      norm_num at hy
    · linarith
  · have hx := congrArg Prod.fst hte
    simp only [segEval] at hx
    norm_num at hx
    linarith
  · have hx := congrArg Prod.fst hte
    simp only [segEval] at hx
    norm_num at hx
    linarith

noncomputable section

/-- Reflection about the horizontal line `y = cY`. -/
def reflPt (cY : ℝ) (p : ℝ × ℝ) : ℝ × ℝ := (p.1, 2 * cY - p.2)

/-- Segment-wise reflection about `y = cY` (orientation preserved). -/
def reflSeg (cY : ℝ) : Seg → Seg
  | .line a b => .line (reflPt cY a) (reflPt cY b)
  | .quad a c b => .quad (reflPt cY a) (reflPt cY c) (reflPt cY b)

end

theorem reflPt_reflPt (cY : ℝ) (p : ℝ × ℝ) : reflPt cY (reflPt cY p) = p := by
  unfold reflPt
  rw [Prod.ext_iff]
  refine ⟨rfl, ?_⟩
  show 2 * cY - (2 * cY - p.2) = p.2
  ring

theorem reflPt_umid (cY : ℝ) (p q : ℝ × ℝ) :
    reflPt cY (umid cY p q) = dmid cY p q := by
  unfold reflPt umid dmid
  rw [Prod.ext_iff]
  refine ⟨rfl, ?_⟩
  show 2 * cY - (cY - (p.2 + q.2) / 2) = cY + (p.2 + q.2) / 2
  ring

theorem reflPt_dmid (cY : ℝ) (p q : ℝ × ℝ) :
    reflPt cY (dmid cY p q) = umid cY p q := by
  unfold reflPt umid dmid
  rw [Prod.ext_iff]
  refine ⟨rfl, ?_⟩
  show 2 * cY - (cY + (p.2 + q.2) / 2) = cY - (p.2 + q.2) / 2
  ring

theorem reflPt_uctrl (cY : ℝ) (p : ℝ × ℝ) :
    reflPt cY (uctrl cY p) = dctrl cY p := by
  unfold reflPt uctrl dctrl
  rw [Prod.ext_iff]
  refine ⟨rfl, ?_⟩
  show 2 * cY - (cY - p.2) = cY + p.2
  ring

theorem reflPt_dctrl (cY : ℝ) (p : ℝ × ℝ) :
    reflPt cY (dctrl cY p) = uctrl cY p := by
  unfold reflPt uctrl dctrl
  rw [Prod.ext_iff]
  refine ⟨rfl, ?_⟩
  show 2 * cY - (cY + p.2) = cY - p.2
  ring

theorem reflPt_axis (cY x : ℝ) : reflPt cY (x, cY) = (x, cY) := by
  unfold reflPt
  rw [Prod.ext_iff]
  refine ⟨rfl, ?_⟩
  show 2 * cY - cY = cY
  ring

theorem umid_comm (cY : ℝ) (p q : ℝ × ℝ) : umid cY p q = umid cY q p := by
  unfold umid
  rw [Prod.ext_iff]
  constructor
  · show (p.1 + q.1) / 2 = (q.1 + p.1) / 2
    ring
  · show cY - (p.2 + q.2) / 2 = cY - (q.2 + p.2) / 2
    ring

theorem dmid_comm (cY : ℝ) (p q : ℝ × ℝ) : dmid cY p q = dmid cY q p := by
  unfold dmid
  rw [Prod.ext_iff]
  constructor
  · show (p.1 + q.1) / 2 = (q.1 + p.1) / 2
    ring
  · show cY + (p.2 + q.2) / 2 = cY + (q.2 + p.2) / 2
    ring

/-- The bottom loop builds exactly the reflection of what the top loop
builds (same orientation, reflected current point). -/
theorem dnBuild_eq (cY : ℝ) (l : List (ℝ × ℝ)) :
    ∀ cur : ℝ × ℝ, dnBuild cY cur l
      = (((upBuild cY (reflPt cY cur) l).1).map (reflSeg cY),
          reflPt cY (upBuild cY (reflPt cY cur) l).2) := by
  induction l with
  | nil => intro cur; simp [dnBuild, upBuild, reflPt_reflPt]
  | cons p l' ih =>
    intro cur
    cases l' with
    | nil => simp [dnBuild, upBuild, reflPt_reflPt]
    | cons q l'' =>
      have ih2 := ih (dmid cY p q)
      rw [reflPt_dmid] at ih2
      simp only [dnBuild, upBuild, List.map_cons]
      rw [ih2]
      simp only [reflSeg, reflPt_reflPt, reflPt_uctrl, reflPt_umid]

/-- The final current point of the top loop is the midpoint of the last
two points. -/
theorem upBuild_snd (cY : ℝ) (a b : ℝ × ℝ) (l : List (ℝ × ℝ)) :
    ∀ cur : ℝ × ℝ, (upBuild cY cur (l ++ [a, b])).2 = umid cY a b := by
  induction l with
  | nil => intro cur; simp [upBuild]
  | cons p l' ih =>
    intro cur
    cases l' with
    | nil => simp [upBuild]
    | cons p2 l'' =>
      simp only [List.cons_append, upBuild]
      exact ih (umid cY p p2)

/-- Membership in the top loop's segment list: either the initial quadratic
(anchored at the current point and the first two points) or an interior
quadratic determined by a window of three consecutive points. -/
theorem upBuild_mem (cY : ℝ) (s : Seg) (l : List (ℝ × ℝ)) :
    ∀ cur : ℝ × ℝ, (s ∈ (upBuild cY cur l).1 ↔
      (∃ p q rest, l = p :: q :: rest ∧ s = Seg.quad cur (uctrl cY p) (umid cY p q)) ∨
      (∃ l1 a b c l2, l = l1 ++ a :: b :: c :: l2 ∧
        s = Seg.quad (umid cY a b) (uctrl cY b) (umid cY b c))) := by
  induction l with
  | nil =>
    intro cur
    constructor
    · intro hs; simp [upBuild] at hs
    · rintro (⟨p, q, rest, heq, -⟩ | ⟨l1, a, b, c, l2, heq, -⟩)
      · exact absurd heq (by simp)
      · have hl := congrArg List.length heq
        simp only [List.length_nil, List.length_append, List.length_cons] at hl
        omega
  | cons p0 l' ih =>
    intro cur
    cases l' with
    | nil =>
      constructor
      · intro hs; simp [upBuild] at hs
      · rintro (⟨p, q, rest, heq, -⟩ | ⟨l1, a, b, c, l2, heq, -⟩)
        · have hl := congrArg List.length heq
          simp only [List.length_cons, List.length_nil] at hl
          omega
        · have hl := congrArg List.length heq
          simp only [List.length_cons, List.length_nil, List.length_append] at hl
          omega
    | cons q0 l'' =>
      constructor
      · intro hs
        simp only [upBuild, List.mem_cons] at hs
        rcases hs with rfl | hs
        · exact Or.inl ⟨p0, q0, l'', rfl, rfl⟩
        · rcases (ih (umid cY p0 q0)).mp hs with
            ⟨p, q, rest, heq, hseq⟩ | ⟨l1, a, b, c, l2, heq, hseq⟩
          · rw [List.cons.injEq] at heq
            obtain ⟨rfl, rfl⟩ := heq
            exact Or.inr ⟨[], p0, q0, q, rest, by simp, hseq⟩
          · exact Or.inr ⟨p0 :: l1, a, b, c, l2, by rw [List.cons_append, ← heq], hseq⟩
      · rintro (⟨p, q, rest, heq, hseq⟩ | ⟨l1, a, b, c, l2, heq, hseq⟩)
        · rw [List.cons.injEq, List.cons.injEq] at heq
          obtain ⟨rfl, rfl, rfl⟩ := heq
          simp only [upBuild, List.mem_cons]
          exact Or.inl hseq
        · cases l1 with
          | nil =>
            simp only [List.nil_append] at heq
            rw [List.cons.injEq, List.cons.injEq] at heq
            obtain ⟨rfl, rfl, rfl⟩ := heq
            have hmem := (ih (umid cY p0 q0)).mpr (Or.inl ⟨q0, c, l2, rfl, hseq⟩)
            simp only [upBuild, List.mem_cons] at hmem ⊢
            exact Or.inr hmem
          | cons x l1' =>
            rw [List.cons_append, List.cons.injEq] at heq
            obtain ⟨rfl, heq2⟩ := heq
            simp only [upBuild, List.mem_cons]
            right
            exact (ih (umid cY p0 q0)).mpr (Or.inr ⟨l1', a, b, c, l2, heq2, hseq⟩)

theorem segEval_reflSeg (cY : ℝ) (s : Seg) (t : ℝ) :
    segEval (reflSeg cY s) t = reflPt cY (segEval s t) := by
  cases s with
  | line a b =>
    unfold reflSeg segEval reflPt
    rw [Prod.ext_iff]
    refine ⟨rfl, ?_⟩
    show (1 - t) * (2 * cY - a.2) + t * (2 * cY - b.2)
        = 2 * cY - ((1 - t) * a.2 + t * b.2)
    ring
  | quad a c b =>
    unfold reflSeg segEval reflPt
    rw [Prod.ext_iff]
    refine ⟨rfl, ?_⟩
    show (1 - t) ^ 2 * (2 * cY - a.2) + 2 * t * (1 - t) * (2 * cY - c.2)
          + t ^ 2 * (2 * cY - b.2)
        = 2 * cY - ((1 - t) ^ 2 * a.2 + 2 * t * (1 - t) * c.2 + t ^ 2 * b.2)
    ring

/-- Reflecting a segment and a point together preserves incidence. -/
theorem onSeg_refl (cY : ℝ) (s : Seg) (p : ℝ × ℝ) :
    OnSeg (reflSeg cY s) (reflPt cY p) ↔ OnSeg s p := by
  constructor
  · rintro ⟨t, h0, h1, he⟩
    rw [segEval_reflSeg] at he
    have h2 := congrArg (reflPt cY) he
    rw [reflPt_reflPt, reflPt_reflPt] at h2
    exact ⟨t, h0, h1, h2⟩
  · rintro ⟨t, h0, h1, he⟩
    exact ⟨t, h0, h1, by rw [segEval_reflSeg, he]⟩

/-- Traversal direction of a quadratic does not change its point set. -/
theorem onSeg_quad_swap (a c b p : ℝ × ℝ) :
    OnSeg (Seg.quad b c a) p ↔ OnSeg (Seg.quad a c b) p := by
  have key : ∀ x z y q : ℝ × ℝ, OnSeg (Seg.quad x z y) q → OnSeg (Seg.quad y z x) q := by
    rintro x z y q ⟨t, h0, h1, he⟩
    refine ⟨1 - t, by linarith, by linarith, ?_⟩
    rw [← he]
    unfold segEval
    rw [Prod.ext_iff]
    constructor
    · show (1 - (1 - t)) ^ 2 * y.1 + 2 * (1 - t) * (1 - (1 - t)) * z.1 + (1 - t) ^ 2 * x.1
          = (1 - t) ^ 2 * x.1 + 2 * t * (1 - t) * z.1 + t ^ 2 * y.1
      ring
    · show (1 - (1 - t)) ^ 2 * y.2 + 2 * (1 - t) * (1 - (1 - t)) * z.2 + (1 - t) ^ 2 * x.2
          = (1 - t) ^ 2 * x.2 + 2 * t * (1 - t) * z.2 + t ^ 2 * y.2
      ring
  exact ⟨key b c a p, key a c b p⟩

/-- Traversal direction of a line does not change its point set. -/
theorem onSeg_line_swap (a b p : ℝ × ℝ) :
    OnSeg (Seg.line b a) p ↔ OnSeg (Seg.line a b) p := by
  have key : ∀ x y q : ℝ × ℝ, OnSeg (Seg.line x y) q → OnSeg (Seg.line y x) q := by
    rintro x y q ⟨t, h0, h1, he⟩
    refine ⟨1 - t, by linarith, by linarith, ?_⟩
    rw [← he]
    unfold segEval
    rw [Prod.ext_iff]
    constructor
    · show (1 - (1 - t)) * y.1 + (1 - t) * x.1 = (1 - t) * x.1 + t * y.1
      ring
    · show (1 - (1 - t)) * y.2 + (1 - t) * x.2 = (1 - t) * x.2 + t * y.2
      ring
  exact ⟨key b a p, key a b p⟩

/-- A quadratic whose control point coincides with its start point is a
reparametrised straight segment: same point set as the line. -/
theorem onSeg_degen (a b p : ℝ × ℝ) :
    OnSeg (Seg.quad a a b) p ↔ OnSeg (Seg.line a b) p := by
  constructor
  · rintro ⟨t, h0, h1, he⟩
    refine ⟨t ^ 2, by positivity, by nlinarith, ?_⟩
    rw [← he]
    unfold segEval
    rw [Prod.ext_iff]
    constructor
    · show (1 - t ^ 2) * a.1 + t ^ 2 * b.1
          = (1 - t) ^ 2 * a.1 + 2 * t * (1 - t) * a.1 + t ^ 2 * b.1
      ring
    · show (1 - t ^ 2) * a.2 + t ^ 2 * b.2
          = (1 - t) ^ 2 * a.2 + 2 * t * (1 - t) * a.2 + t ^ 2 * b.2
      ring
  · rintro ⟨u, h0, h1, he⟩
    have ht0 : (0 : ℝ) ≤ Real.sqrt u := Real.sqrt_nonneg u
    have ht1 : Real.sqrt u ≤ 1 := Real.sqrt_le_one.mpr h1
    have ht2 : Real.sqrt u ^ 2 = u := Real.sq_sqrt h0
    refine ⟨Real.sqrt u, ht0, ht1, ?_⟩
    rw [← he]
    unfold segEval
    rw [Prod.ext_iff]
    constructor
    · show (1 - Real.sqrt u) ^ 2 * a.1 + 2 * Real.sqrt u * (1 - Real.sqrt u) * a.1
          + Real.sqrt u ^ 2 * b.1 = (1 - u) * a.1 + u * b.1
      linear_combination (b.1 - a.1) * ht2
    · show (1 - Real.sqrt u) ^ 2 * a.2 + 2 * Real.sqrt u * (1 - Real.sqrt u) * a.2
          + Real.sqrt u ^ 2 * b.2 = (1 - u) * a.2 + u * b.2
      linear_combination (b.2 - a.2) * ht2

/-- A degenerate line from a point to itself only contains that point. -/
theorem onSeg_line_self (a p : ℝ × ℝ) : OnSeg (Seg.line a a) p → p = a := by
  rintro ⟨t, -, -, he⟩
  rw [← he]
  unfold segEval
  rw [Prod.ext_iff]
  constructor
  · show (1 - t) * a.1 + t * a.1 = a.1
    ring
  · show (1 - t) * a.2 + t * a.2 = a.2
    ring

theorem onSeg_quad_start (a c b : ℝ × ℝ) : OnSeg (Seg.quad a c b) a := by
  refine ⟨0, le_refl 0, zero_le_one, ?_⟩
  unfold segEval
  rw [Prod.ext_iff]
  constructor
  · show (1 - 0) ^ 2 * a.1 + 2 * 0 * (1 - 0) * c.1 + 0 ^ 2 * b.1 = a.1
    ring
  · show (1 - 0) ^ 2 * a.2 + 2 * 0 * (1 - 0) * c.2 + 0 ^ 2 * b.2 = a.2
    ring

/-- Shape of the upper contour when the last point is `(width, 0)`:
the chain, a line from the final midpoint to `(width, cY)`, and a
degenerate line at `(width, cY)`. -/
theorem upperContour_shape (front : List (ℝ × ℝ)) (z : ℝ × ℝ) (width cY : ℝ)
    (pts : List (ℝ × ℝ)) (h2 : pts = front ++ [z, (width, (0 : ℝ))]) :
    upperContour pts width cY
      = (upBuild cY ((0 : ℝ), cY) pts).1
        ++ [Seg.line (umid cY z (width, (0 : ℝ))) (width, cY),
            Seg.line (width, cY) (width, cY)] := by
  have hgl : pts.getLast? = some (width, (0 : ℝ)) := by
    rw [h2, show front ++ [z, (width, (0 : ℝ))] = (front ++ [z]) ++ [(width, (0 : ℝ))] from
      (List.append_assoc front [z] [(width, (0 : ℝ))]).symm]
    exact List.getLast?_concat _
  have hfin : (upBuild cY ((0 : ℝ), cY) pts).2 = umid cY z (width, (0 : ℝ)) := by
    rw [h2]
    exact upBuild_snd cY z (width, (0 : ℝ)) front ((0 : ℝ), cY)
  have hE : (((width, (0 : ℝ)) : ℝ × ℝ).1, cY - ((width, (0 : ℝ)) : ℝ × ℝ).2)
      = ((width : ℝ), cY) := by
    rw [Prod.ext_iff]
    refine ⟨rfl, ?_⟩
    show cY - 0 = cY
    ring
  unfold upperContour
  rw [hgl]
  show (upBuild cY ((0 : ℝ), cY) pts).1
      ++ [Seg.line ((upBuild cY ((0 : ℝ), cY) pts).2)
            (((width, (0 : ℝ)) : ℝ × ℝ).1, cY - ((width, (0 : ℝ)) : ℝ × ℝ).2),
          Seg.line (((width, (0 : ℝ)) : ℝ × ℝ).1, cY - ((width, (0 : ℝ)) : ℝ × ℝ).2)
            (width, cY)] = _
  rw [hfin, hE]

/-- Shape of the lower contour: the mirrored chain over the reversed points
and the close line from the final mirrored midpoint back to `(0, cY)`. -/
theorem lowerContour_shape (q : ℝ × ℝ) (rest1 : List (ℝ × ℝ)) (width cY : ℝ)
    (pts : List (ℝ × ℝ)) (h1 : pts = ((0 : ℝ), (0 : ℝ)) :: q :: rest1) :
    lowerContour pts width cY
      = (dnBuild cY ((width : ℝ), cY) pts.reverse).1
        ++ [Seg.line (dmid cY q ((0 : ℝ), (0 : ℝ))) ((0 : ℝ), cY)] := by
  subst h1
  have hrev2 : ((((0 : ℝ), (0 : ℝ)) : ℝ × ℝ) :: q :: rest1).reverse
      = rest1.reverse ++ [q, ((0 : ℝ), (0 : ℝ))] := by
    simp
  have hsnd : (dnBuild cY ((width : ℝ), cY)
        ((((0 : ℝ), (0 : ℝ)) : ℝ × ℝ) :: q :: rest1).reverse).2
      = dmid cY q ((0 : ℝ), (0 : ℝ)) := by
    rw [dnBuild_eq]
    dsimp only
    rw [reflPt_axis, hrev2, upBuild_snd cY q ((0 : ℝ), (0 : ℝ)) rest1.reverse]
    exact reflPt_umid cY q ((0 : ℝ), (0 : ℝ))
  unfold lowerContour
  show (dnBuild cY ((width : ℝ), cY) ((((0 : ℝ), (0 : ℝ)) : ℝ × ℝ) :: q :: rest1).reverse).1
      ++ [Seg.line ((dnBuild cY ((width : ℝ), cY)
            ((((0 : ℝ), (0 : ℝ)) : ℝ × ℝ) :: q :: rest1).reverse).2) ((0 : ℝ), cY)] = _
  rw [hsnd]

/-- C4 (amended): the closed path is vertically symmetric about `centerY`
when the first smoothed point is `(0, 0)` and the last is `(width, 0)`
(the x extremes are what the mapper always produces; the zero end
amplitudes are what the counterexample shows to be necessary): for every x
and offset d, `(x, centerY - d)` lies on the upper contour iff
`(x, centerY + d)` lies on the lower contour.  With nonzero end amplitudes
the straight end caps above and the quadratic end caps below differ. -/
theorem C4_symmetry_amended (pts : List (ℝ × ℝ)) (width cY : ℝ)
    (q z : ℝ × ℝ) (rest1 front : List (ℝ × ℝ))
    (h1 : pts = ((0 : ℝ), (0 : ℝ)) :: q :: rest1)
    (h2 : pts = front ++ [z, (width, (0 : ℝ))]) :
    ∀ x d : ℝ,
      OnPath (upperContour pts width cY) (x, cY - d)
        ↔ OnPath (lowerContour pts width cY) (x, cY + d) := by
  subst h1
  have hupC := upperContour_shape front z width cY _ h2
  have hlowC := lowerContour_shape q rest1 width cY _ rfl
  have hrev : ((((0 : ℝ), (0 : ℝ)) : ℝ × ℝ) :: q :: rest1).reverse
      = (width, (0 : ℝ)) :: z :: front.reverse := by
    rw [h2]
    simp
  have hdnQ : ∀ s : Seg,
      s ∈ (dnBuild cY ((width : ℝ), cY)
          ((((0 : ℝ), (0 : ℝ)) : ℝ × ℝ) :: q :: rest1).reverse).1 ↔
        ∃ s₀, s₀ ∈ (upBuild cY ((width : ℝ), cY)
            ((((0 : ℝ), (0 : ℝ)) : ℝ × ℝ) :: q :: rest1).reverse).1
          ∧ s = reflSeg cY s₀ := by
    intro s
    rw [dnBuild_eq, reflPt_axis]
    dsimp only
    rw [List.mem_map]
    constructor
    · rintro ⟨a, ha, hfa⟩
      exact ⟨a, ha, hfa.symm⟩
    · rintro ⟨a, ha, hfa⟩
      exact ⟨a, ha, hfa.symm⟩
  have huc0 : uctrl cY ((0 : ℝ), (0 : ℝ)) = ((0 : ℝ), cY) := by
    unfold uctrl
    rw [Prod.ext_iff]
    refine ⟨rfl, ?_⟩
    show cY - 0 = cY
    ring
  have hdcW : dctrl cY (width, (0 : ℝ)) = ((width : ℝ), cY) := by
    unfold dctrl
    rw [Prod.ext_iff]
    refine ⟨rfl, ?_⟩
    show cY + 0 = cY
    ring
  -- the reflected head segment of the mirrored chain, shared by both maps
  have hmemT : Seg.quad ((width : ℝ), cY) (uctrl cY (width, (0 : ℝ)))
        (umid cY (width, (0 : ℝ)) z)
      ∈ (upBuild cY ((width : ℝ), cY)
          ((((0 : ℝ), (0 : ℝ)) : ℝ × ℝ) :: q :: rest1).reverse).1 :=
    (upBuild_mem cY _ _ _).mpr (Or.inl ⟨(width, (0 : ℝ)), z, front.reverse, hrev, rfl⟩)
  have hT : reflSeg cY (Seg.quad ((width : ℝ), cY) (uctrl cY (width, (0 : ℝ)))
        (umid cY (width, (0 : ℝ)) z))
      = Seg.quad ((width : ℝ), cY) ((width : ℝ), cY) (dmid cY (width, (0 : ℝ)) z) := by
    simp only [reflSeg]
    rw [reflPt_umid, reflPt_uctrl, reflPt_axis, hdcW]
  have hTmem : Seg.quad ((width : ℝ), cY) ((width : ℝ), cY) (dmid cY (width, (0 : ℝ)) z)
      ∈ lowerContour ((((0 : ℝ), (0 : ℝ)) : ℝ × ℝ) :: q :: rest1) width cY := by
    rw [hlowC, List.mem_append]
    left
    exact (hdnQ _).mpr ⟨_, hmemT, hT.symm⟩
  have fwd : ∀ p : ℝ × ℝ,
      OnPath (upperContour ((((0 : ℝ), (0 : ℝ)) : ℝ × ℝ) :: q :: rest1) width cY) p →
      OnPath (lowerContour ((((0 : ℝ), (0 : ℝ)) : ℝ × ℝ) :: q :: rest1) width cY)
        (reflPt cY p) := by
    rintro p ⟨s, hs, hOn⟩
    rw [hupC, List.mem_append] at hs
    rcases hs with hs | hs
    · rcases (upBuild_mem cY s _ _).mp hs with
        ⟨pA, qA, restA, heqA, hseq⟩ | ⟨l1, a, b, c, l2, heqA, hseq⟩
      · rw [List.cons.injEq, List.cons.injEq] at heqA
        obtain ⟨hA, hB, hC⟩ := heqA
        subst hA
        subst hB
        subst hC
        rw [huc0] at hseq
        subst hseq
        have h3 := (onSeg_degen _ _ _).mp hOn
        have h4 := (onSeg_refl cY _ _).mpr h3
        have h5 : reflSeg cY (Seg.line ((0 : ℝ), cY) (umid cY ((0 : ℝ), (0 : ℝ)) q))
            = Seg.line ((0 : ℝ), cY) (dmid cY ((0 : ℝ), (0 : ℝ)) q) := by
          simp only [reflSeg]
          rw [reflPt_umid, reflPt_axis]
        rw [h5] at h4
        have h6 := (onSeg_line_swap _ _ _).mp h4
        rw [dmid_comm] at h6
        refine ⟨Seg.line (dmid cY q ((0 : ℝ), (0 : ℝ))) ((0 : ℝ), cY), ?_, h6⟩
        rw [hlowC, List.mem_append]
        right
        simp
      · have hrevA : ((((0 : ℝ), (0 : ℝ)) : ℝ × ℝ) :: q :: rest1).reverse
            = l2.reverse ++ c :: b :: a :: l1.reverse := by
          rw [heqA]
          simp
        have hmem₀ : Seg.quad (umid cY c b) (uctrl cY b) (umid cY b a)
            ∈ (upBuild cY ((width : ℝ), cY)
                ((((0 : ℝ), (0 : ℝ)) : ℝ × ℝ) :: q :: rest1).reverse).1 :=
          (upBuild_mem cY _ _ _).mpr (Or.inr ⟨l2.reverse, c, b, a, l1.reverse, hrevA, rfl⟩)
        subst hseq
        have h4 := (onSeg_refl cY _ _).mpr hOn
        have h5 : reflSeg cY (Seg.quad (umid cY a b) (uctrl cY b) (umid cY b c))
            = Seg.quad (dmid cY a b) (dctrl cY b) (dmid cY b c) := by
          simp only [reflSeg]
          rw [reflPt_umid, reflPt_umid, reflPt_uctrl]
        rw [h5] at h4
        have h6 := (onSeg_quad_swap _ _ _ _).mp h4
        have h7 : reflSeg cY (Seg.quad (umid cY c b) (uctrl cY b) (umid cY b a))
            = Seg.quad (dmid cY b c) (dctrl cY b) (dmid cY a b) := by
          simp only [reflSeg]
          rw [reflPt_umid, reflPt_umid, reflPt_uctrl, dmid_comm cY c b, dmid_comm cY b a]
        refine ⟨reflSeg cY (Seg.quad (umid cY c b) (uctrl cY b) (umid cY b a)), ?_, ?_⟩
        · rw [hlowC, List.mem_append]
          left
          exact (hdnQ _).mpr ⟨_, hmem₀, rfl⟩
        · rw [h7]
          exact h6
    · rw [List.mem_cons, List.mem_singleton] at hs
      rcases hs with rfl | rfl
      · have h4 := (onSeg_refl cY _ _).mpr hOn
        have h5 : reflSeg cY (Seg.line (umid cY z (width, (0 : ℝ))) ((width : ℝ), cY))
            = Seg.line (dmid cY z (width, (0 : ℝ))) ((width : ℝ), cY) := by
          simp only [reflSeg]
          rw [reflPt_umid, reflPt_axis]
        rw [h5] at h4
        have h6 := (onSeg_line_swap _ _ _).mp h4
        rw [dmid_comm] at h6
        have h7 := (onSeg_degen _ _ _).mpr h6
        exact ⟨_, hTmem, h7⟩
      · have hp := onSeg_line_self _ _ hOn
        refine ⟨_, hTmem, ?_⟩
        rw [hp, reflPt_axis]
        exact onSeg_quad_start _ _ _
  have bwd : ∀ p : ℝ × ℝ,
      OnPath (lowerContour ((((0 : ℝ), (0 : ℝ)) : ℝ × ℝ) :: q :: rest1) width cY) p →
      OnPath (upperContour ((((0 : ℝ), (0 : ℝ)) : ℝ × ℝ) :: q :: rest1) width cY)
        (reflPt cY p) := by
    rintro p ⟨s, hs, hOn⟩
    rw [hlowC, List.mem_append] at hs
    rcases hs with hs | hs
    · obtain ⟨s₀, hs₀, rfl⟩ := (hdnQ s).mp hs
      rcases (upBuild_mem cY s₀ _ _).mp hs₀ with
        ⟨pA, qA, restA, heqD, hseq₀⟩ | ⟨l1, a, b, c, l2, heqD, hseq₀⟩
      · rw [hrev, List.cons.injEq, List.cons.injEq] at heqD
        obtain ⟨hA, hB, hC⟩ := heqD
        subst hA
        subst hB
        subst hC
        subst hseq₀
        rw [hT] at hOn
        have h3 := (onSeg_degen _ _ _).mp hOn
        have h5 : reflSeg cY (Seg.line ((width : ℝ), cY) (umid cY (width, (0 : ℝ)) z))
            = Seg.line ((width : ℝ), cY) (dmid cY (width, (0 : ℝ)) z) := by
          simp only [reflSeg]
          rw [reflPt_umid, reflPt_axis]
        rw [← h5, ← reflPt_reflPt cY p] at h3
        have h4 := (onSeg_refl cY _ _).mp h3
        have h6 := (onSeg_line_swap _ _ _).mp h4
        rw [umid_comm] at h6
        refine ⟨Seg.line (umid cY z (width, (0 : ℝ))) ((width : ℝ), cY), ?_, h6⟩
        rw [hupC, List.mem_append]
        right
        simp
      · have hP : (((0 : ℝ), (0 : ℝ)) : ℝ × ℝ) :: q :: rest1
            = l2.reverse ++ c :: b :: a :: l1.reverse := by
          conv_lhs => rw [← List.reverse_reverse ((((0 : ℝ), (0 : ℝ)) : ℝ × ℝ) :: q :: rest1),
            heqD]
          simp
        have hmemU : Seg.quad (umid cY c b) (uctrl cY b) (umid cY b a)
            ∈ (upBuild cY ((0 : ℝ), cY) ((((0 : ℝ), (0 : ℝ)) : ℝ × ℝ) :: q :: rest1)).1 :=
          (upBuild_mem cY _ _ _).mpr (Or.inr ⟨l2.reverse, c, b, a, l1.reverse, hP, rfl⟩)
        subst hseq₀
        have h5 : reflSeg cY (Seg.quad (umid cY a b) (uctrl cY b) (umid cY b c))
            = Seg.quad (dmid cY a b) (dctrl cY b) (dmid cY b c) := by
          simp only [reflSeg]
          rw [reflPt_umid, reflPt_umid, reflPt_uctrl]
        rw [← reflPt_reflPt cY p] at hOn
        have h4 := (onSeg_refl cY _ _).mp hOn
        have h6 := (onSeg_quad_swap _ _ _ _).mp h4
        rw [umid_comm cY b c, umid_comm cY a b] at h6
        refine ⟨_, ?_, h6⟩
        rw [hupC, List.mem_append]
        left
        exact hmemU
    · rw [List.mem_singleton] at hs
      subst hs
      have h5 : reflSeg cY (Seg.line (umid cY q ((0 : ℝ), (0 : ℝ))) ((0 : ℝ), cY))
          = Seg.line (dmid cY q ((0 : ℝ), (0 : ℝ))) ((0 : ℝ), cY) := by
        simp only [reflSeg]
        rw [reflPt_umid, reflPt_axis]
      rw [← h5, ← reflPt_reflPt cY p] at hOn
      have h4 := (onSeg_refl cY _ _).mp hOn
      have h6 := (onSeg_line_swap _ _ _).mp h4
      rw [umid_comm] at h6
      have h7 := (onSeg_degen _ _ _).mpr h6
      have hmemU : Seg.quad ((0 : ℝ), cY) (uctrl cY ((0 : ℝ), (0 : ℝ)))
            (umid cY ((0 : ℝ), (0 : ℝ)) q)
          ∈ (upBuild cY ((0 : ℝ), cY) ((((0 : ℝ), (0 : ℝ)) : ℝ × ℝ) :: q :: rest1)).1 :=
        (upBuild_mem cY _ _ _).mpr (Or.inl ⟨((0 : ℝ), (0 : ℝ)), q, rest1, rfl, rfl⟩)
      rw [huc0] at hmemU
      refine ⟨_, ?_, h7⟩
      rw [hupC, List.mem_append]
      left
      exact hmemU
  intro x d
  have hxd1 : reflPt cY (x, cY - d) = (x, cY + d) := by
    unfold reflPt
    rw [Prod.ext_iff]
    refine ⟨rfl, ?_⟩
    show 2 * cY - (cY - d) = cY + d
    ring
  have hxd2 : reflPt cY (x, cY + d) = (x, cY - d) := by
    unfold reflPt
    rw [Prod.ext_iff]
    refine ⟨rfl, ?_⟩
    show 2 * cY - (cY + d) = cY - d
    ring
  constructor
  · intro h
    have hres := fwd _ h
    rwa [hxd1] at hres
  · intro h
    have hres := bwd _ h
    rwa [hxd2] at hres

/-- C4 amended witness: the two-point sequence `(0,0), (1,0)` with width 1,
`centerY = 10` satisfies the endpoint conditions, so its path is
symmetric. -/
theorem C4_symmetry_amended_witness :
    ([((0 : ℝ), (0 : ℝ)), (1, 0)] : List (ℝ × ℝ))
        = ((0 : ℝ), (0 : ℝ)) :: ((1 : ℝ), (0 : ℝ)) :: [] ∧
    ([((0 : ℝ), (0 : ℝ)), (1, 0)] : List (ℝ × ℝ))
        = [] ++ [((0 : ℝ), (0 : ℝ)), ((1 : ℝ), (0 : ℝ))] ∧
    ∀ x d : ℝ,
      OnPath (upperContour [((0 : ℝ), (0 : ℝ)), (1, 0)] 1 10) (x, 10 - d)
        ↔ OnPath (lowerContour [((0 : ℝ), (0 : ℝ)), (1, 0)] 1 10) (x, 10 + d) := by
  refine ⟨rfl, rfl, ?_⟩
  exact C4_symmetry_amended [((0 : ℝ), (0 : ℝ)), (1, 0)] 1 10 ((1 : ℝ), (0 : ℝ))
    ((0 : ℝ), (0 : ℝ)) [] [] rfl rfl

end PastelPlayer
